import Mathlib

/-!
Verification of the descriptor-driven CLI wallet (`src/main.rs`) against its
natural-language specification. The visible Rust source delegates the wallet
engine (descriptor derivation, UTXO accounting, coin selection, transaction
building, PSBT codec, broadcast) to the `bdk` library; the engine pieces that
are not present under `src/` are modelled from the specification, while the
control flow of the four CLI operations (`balance`, `receive`, `send`,
`broadcast`) is embedded faithfully from `execute` and `create_wallet` in
`src/main.rs`.
-/

namespace BdkCli

set_option autoImplicit false

/-! ## Base64 transport codec

The PSBT travels between `send` and `broadcast` as base64 text
(`base64::encode(&serialize(&psbt))` at src/main.rs:218 and
`base64::decode(&psbt)` at src/main.rs:226). Modelled from the spec:
"binary PSBT encoding wrapped in a reversible text transport encoding",
carried "as a base64 text payload". -/

/-- The 64-character base64 alphabet, in sextet order. -/
def b64Alphabet : List Char :=
  [ 'A', 'B', 'C', 'D', 'E', 'F', 'G', 'H', 'I', 'J', 'K', 'L', 'M',
    'N', 'O', 'P', 'Q', 'R', 'S', 'T', 'U', 'V', 'W', 'X', 'Y', 'Z',
    'a', 'b', 'c', 'd', 'e', 'f', 'g', 'h', 'i', 'j', 'k', 'l', 'm',
    'n', 'o', 'p', 'q', 'r', 's', 't', 'u', 'v', 'w', 'x', 'y', 'z',
    '0', '1', '2', '3', '4', '5', '6', '7', '8', '9', '+', '/' ]

/-- The character encoding a sextet value `0 ≤ n < 64`. -/
def sextetChar (n : Nat) : Char := b64Alphabet.getD n 'A'

/-- The sextet value of a base64 alphabet character, `none` for any other
character (including the padding character). -/
def charSextet (c : Char) : Option Nat := b64Alphabet.findIdx? (· = c)

/-- Base64-encode a byte list: each 3-byte group becomes 4 sextet characters;
a trailing group of 1 or 2 bytes is padded with `=`. -/
def b64Encode : List Nat → List Char
  | [] => []
  | [b0] => [sextetChar (b0 / 4), sextetChar (b0 % 4 * 16), '=', '=']
  | [b0, b1] =>
      [sextetChar (b0 / 4), sextetChar (b0 % 4 * 16 + b1 / 16),
       sextetChar (b1 % 16 * 4), '=']
  | b0 :: b1 :: b2 :: rest =>
      sextetChar (b0 / 4) :: sextetChar (b0 % 4 * 16 + b1 / 16) ::
      sextetChar (b1 % 16 * 4 + b2 / 64) :: sextetChar (b2 % 64) ::
      b64Encode rest

/-- Base64-decode a character list; fails on any character outside the
alphabet, on misplaced padding, or on a length that is not a multiple of 4. -/
def b64Decode : List Char → Option (List Nat)
  | [] => some []
  | c0 :: c1 :: c2 :: c3 :: rest =>
      (charSextet c0).bind fun s0 =>
      (charSextet c1).bind fun s1 =>
      if c2 = '=' ∧ c3 = '=' ∧ rest = [] then
        some [s0 * 4 + s1 / 16]
      else if c3 = '=' ∧ rest = [] then
        (charSextet c2).bind fun s2 =>
        some [s0 * 4 + s1 / 16, s1 % 16 * 16 + s2 / 4]
      else
        (charSextet c2).bind fun s2 =>
        (charSextet c3).bind fun s3 =>
        (b64Decode rest).bind fun bs =>
        some ((s0 * 4 + s1 / 16) :: (s1 % 16 * 16 + s2 / 4) ::
              (s2 % 4 * 64 + s3) :: bs)
  | _ => none

/-! ## Binary PSBT structure

Modelled from the spec: "standard binary PSBT structure (global unsigned
transaction + per-input/per-output key-value maps)" (`serialize(&psbt)` at
src/main.rs:218 and `deserialize(&psbt)` at src/main.rs:227 are library code
not present under `src/`). Variable-length fields carry an 8-byte
little-endian length, the structure opens with the PSBT magic bytes. -/

/-- The 8 little-endian base-256 digits of `n` (valid for `n < 256^8`). -/
def toLE8 (n : Nat) : List Nat :=
  [n % 256, n / 256 % 256, n / 256 ^ 2 % 256, n / 256 ^ 3 % 256,
   n / 256 ^ 4 % 256, n / 256 ^ 5 % 256, n / 256 ^ 6 % 256, n / 256 ^ 7 % 256]

/-- Read an 8-byte little-endian number off the front of a byte stream. -/
def fromLE8 : List Nat → Option (Nat × List Nat)
  | b0 :: b1 :: b2 :: b3 :: b4 :: b5 :: b6 :: b7 :: rest =>
      some (b0 + 256 * (b1 + 256 * (b2 + 256 * (b3 + 256 * (b4 + 256 *
        (b5 + 256 * (b6 + 256 * b7)))))), rest)
  | _ => none

/-- A length-prefixed byte string. -/
def encodeBytes (xs : List Nat) : List Nat := toLE8 xs.length ++ xs

/-- Read a length-prefixed byte string off the front of a byte stream. -/
def decodeBytes (input : List Nat) : Option (List Nat × List Nat) :=
  (fromLE8 input).bind fun p =>
    if p.1 ≤ p.2.length then some (p.2.take p.1, p.2.drop p.1) else none

/-- Read `n` consecutive items off a byte stream with the item reader `g`. -/
def decodeN {α : Type} (g : List Nat → Option (α × List Nat)) :
    Nat → List Nat → Option (List α × List Nat)
  | 0, input => some ([], input)
  | n + 1, input =>
      (g input).bind fun p =>
        (decodeN g n p.2).bind fun q => some (p.1 :: q.1, q.2)

/-- One PSBT key-value entry: a typed key and its value, both raw bytes. -/
def encodePair (kv : List Nat × List Nat) : List Nat :=
  encodeBytes kv.1 ++ encodeBytes kv.2

/-- Read one key-value entry off a byte stream. -/
def decodePair (input : List Nat) : Option ((List Nat × List Nat) × List Nat) :=
  (decodeBytes input).bind fun k =>
    (decodeBytes k.2).bind fun v => some ((k.1, v.1), v.2)

/-- A PSBT key-value map: an entry count followed by the entries. -/
def encodeMap (m : List (List Nat × List Nat)) : List Nat :=
  toLE8 m.length ++ (m.map encodePair).flatten

/-- Read one key-value map off a byte stream. -/
def decodeMap (input : List Nat) :
    Option (List (List Nat × List Nat) × List Nat) :=
  (fromLE8 input).bind fun p => decodeN decodePair p.1 p.2

/-- A PSBT: the serialized global unsigned transaction plus one key-value map
per input and per output, as in the wire format. -/
structure Psbt where
  unsignedTx : List Nat
  inputMaps : List (List (List Nat × List Nat))
  outputMaps : List (List (List Nat × List Nat))
  deriving DecidableEq, Repr

/-- Well-formed byte string: genuine bytes, length expressible in 8 bytes. -/
def bytesWf (xs : List Nat) : Prop :=
  xs.length < 256 ^ 8 ∧ ∀ b ∈ xs, b < 256

/-- Well-formed key-value map. -/
def mapWf (m : List (List Nat × List Nat)) : Prop :=
  m.length < 256 ^ 8 ∧ ∀ kv ∈ m, bytesWf kv.1 ∧ bytesWf kv.2

/-- Well-formed (valid) PSBT: every field is genuine bytes with encodable
lengths. -/
def Psbt.wf (p : Psbt) : Prop :=
  bytesWf p.unsignedTx ∧
  p.inputMaps.length < 256 ^ 8 ∧ (∀ m ∈ p.inputMaps, mapWf m) ∧
  p.outputMaps.length < 256 ^ 8 ∧ (∀ m ∈ p.outputMaps, mapWf m)

instance : DecidablePred bytesWf := fun xs => by
  unfold bytesWf; infer_instance

instance : DecidablePred mapWf := fun m => by
  unfold mapWf; infer_instance

instance (p : Psbt) : Decidable p.wf := by
  unfold Psbt.wf; infer_instance

/-- The PSBT magic bytes `psbt\xff`. -/
def psbtMagic : List Nat := [112, 115, 98, 116, 255]

/-- Binary PSBT serialization: magic, global unsigned transaction, the
per-input maps, then the per-output maps. -/
def serializePsbt (p : Psbt) : List Nat :=
  112 :: 115 :: 98 :: 116 :: 255 ::
    (encodeBytes p.unsignedTx ++
     (toLE8 p.inputMaps.length ++ (p.inputMaps.map encodeMap).flatten) ++
     (toLE8 p.outputMaps.length ++ (p.outputMaps.map encodeMap).flatten))

/-- Binary PSBT deserialization; fails on bad magic bytes or a malformed
structure, and rejects trailing garbage. -/
def deserializePsbt (bytes : List Nat) : Option Psbt :=
  match bytes with
  | 112 :: 115 :: 98 :: 116 :: 255 :: rest =>
      (decodeBytes rest).bind fun tx =>
      (fromLE8 tx.2).bind fun nIn =>
      (decodeN decodeMap nIn.1 nIn.2).bind fun ins =>
      (fromLE8 ins.2).bind fun nOut =>
      (decodeN decodeMap nOut.1 nOut.2).bind fun outs =>
      if outs.2 = [] then some ⟨tx.1, ins.1, outs.1⟩ else none
  | _ => none

/-! ## Text-level PSBT codec (binary wrapped in base64) -/

/-- `serialize(psbt) → text`: binary PSBT wrapped in the base64 transport
encoding (src/main.rs:218). -/
def serializePsbtText (p : Psbt) : List Char := b64Encode (serializePsbt p)

/-- `deserialize(text) → PSBT`: base64 transport decode then binary decode,
failing on either layer (src/main.rs:226-227). -/
def deserializePsbtText (s : List Char) : Option Psbt :=
  (b64Decode s).bind deserializePsbt

/-! ## PSBT finalization and transaction extraction

Modelled from the spec: `finalize(psbt, wallet)` attaches final
scriptSig/witness bytes to each input that has sufficient signature data and
leaves the others unfinalized (`wallet.finalize_psbt` at src/main.rs:236);
`psbt.extract_tx()` at src/main.rs:239 takes the transaction out of the PSBT
infallibly, exactly as at its call site (no error path, no `?`). PSBT key
type 2 holds a partial signature, key types 7 and 8 hold the final
scriptSig/witness. -/

/-- Whether an input's key-value map already carries final scriptSig or final
witness data (key type 7 or 8). -/
def isInputFinalized (m : List (List Nat × List Nat)) : Bool :=
  m.any fun kv => kv.1 == [7] || kv.1 == [8]

/-- A PSBT is finalized only when every input carries final
scriptSig/witness data. -/
def isFullyFinalized (p : Psbt) : Bool := p.inputMaps.all isInputFinalized

/-- Whether an input's map carries partial-signature data (key type 2). -/
def hasSigData (m : List (List Nat × List Nat)) : Bool :=
  m.any fun kv => kv.1.headD 0 == 2

/-- The concatenated partial-signature bytes of an input map, the material
for its final witness. -/
def sigBytes (m : List (List Nat × List Nat)) : List Nat :=
  ((m.filter fun kv => kv.1.headD 0 == 2).map Prod.snd).flatten

/-- Modelled from the spec: finalize one input — a no-op when the input is
already finalized, attach final witness bytes when signature data is
sufficient, and leave the input unfinalized (not an error) otherwise. -/
def finalizeInput (m : List (List Nat × List Nat)) :
    List (List Nat × List Nat) :=
  if isInputFinalized m then m
  else if hasSigData m then m ++ [([8], sigBytes m)]
  else m

/-- Modelled from the spec: `wallet.finalize_psbt` finalizes every input it
can and reports whether the whole PSBT is now finalized
(src/main.rs:236). -/
def finalize_psbt (p : Psbt) : Psbt × Bool :=
  let q : Psbt := ⟨p.unsignedTx, p.inputMaps.map finalizeInput, p.outputMaps⟩
  (q, isFullyFinalized q)

/-- The final scriptSig/witness bytes of one input map. -/
def finalData (m : List (List Nat × List Nat)) : List Nat :=
  ((m.filter fun kv => kv.1 == [7] || kv.1 == [8]).map Prod.snd).flatten

/-- `psbt.extract_tx()` (src/main.rs:239): take the transaction out of the
PSBT — the unsigned transaction with whatever final scriptSig/witness data
each input carries. Infallible, exactly as at its call site. -/
def extract_tx (p : Psbt) : List Nat :=
  p.unsignedTx ++ (p.inputMaps.map finalData).flatten

/-! ## The `broadcast` operation (src/main.rs:222-247)

Embedded from the source control flow: `create_wallet` — which opens the
Electrum connection and syncs (src/main.rs:107-135) — runs first; only then
is the base64 payload decoded (src/main.rs:226) and deserialized
(src/main.rs:227); the PSBT is finalized with the returned flag discarded
(`let _psbt_is_finalized = ...`, src/main.rs:236); the transaction is
extracted and broadcast unconditionally (src/main.rs:239-242). -/

/-- An externally visible network effect of one CLI run. -/
inductive Effect where
  | sync
  | broadcastTx (tx : List Nat)
  deriving DecidableEq, Repr

/-- The `broadcast` verb: the network effects it performs, in order, and its
result. -/
def executeBroadcast (psbtText : List Char) :
    List Effect × Except String (List Nat) :=
  match b64Decode psbtText with
  | none => ([Effect.sync], Except.error "DecodeError")
  | some bytes =>
      match deserializePsbt bytes with
      | none => ([Effect.sync], Except.error "DecodeError")
      | some psbt =>
          let finalized := finalize_psbt psbt
          let tx := extract_tx finalized.1
          ([Effect.sync, Effect.broadcastTx tx], Except.ok tx)

/-- The process exit code of the `broadcast` verb (src/main.rs:51-57: any
error prints a diagnostic and exits 1). -/
def broadcastExitCode (psbtText : List Char) : Nat :=
  match (executeBroadcast psbtText).2 with
  | Except.ok _ => 0
  | Except.error _ => 1

/-- Whether a run attempted to broadcast some transaction. -/
def hasBroadcastEffect (effects : List Effect) : Bool :=
  effects.any fun e =>
    match e with
    | Effect.broadcastTx _ => true
    | _ => false

/-! ## Coin selection and transaction building (the `send` operation)

Modelled from the spec: `DefaultCoinSelectionAlgorithm` (an alias for
`LargestFirstCoinSelection`, src/main.rs:202), `enable_rbf` (src/main.rs:208)
and `tx_builder.finish()` (src/main.rs:216) are library code not present
under `src/`. The spec prescribes largest-first selection with an
outpoint tie-break, a fee estimate that grows with each added input, and
dust suppression of the change output. -/

/-- An unspent transaction output as tracked by the wallet database. -/
structure Utxo where
  txid : Nat
  vout : Nat
  value : Nat
  confirmations : Nat
  deriving DecidableEq, Repr

/-- Total value of a set of UTXOs. -/
def sumValue (us : List Utxo) : Nat := (us.map Utxo.value).sum

/-- Largest-first order: descending by value, ties broken by outpoint
(txid then output index) for determinism. -/
def utxoBefore (u v : Utxo) : Bool :=
  v.value < u.value ∨
    (u.value = v.value ∧
      (u.txid < v.txid ∨ (u.txid = v.txid ∧ u.vout ≤ v.vout)))

/-- Insert a UTXO into a list sorted by `utxoBefore`. -/
def insertUtxo (u : Utxo) : List Utxo → List Utxo
  | [] => [u]
  | v :: rest => if utxoBefore u v then u :: v :: rest else v :: insertUtxo u rest

/-- Sort candidate UTXOs into largest-first order. -/
def sortUtxos : List Utxo → List Utxo
  | [] => []
  | u :: rest => insertUtxo u (sortUtxos rest)

/-- Virtual size contributed by the fixed transaction skeleton plus the
recipient and change outputs (version, locktime, counts, two outputs). -/
def txBaseVBytes : Nat := 73

/-- Virtual size contributed by each witness-pubkey-hash input. -/
def inputVBytes : Nat := 68

/-- Modelled from the spec: `estimatedFee(chosenSoFar, feeRate)` — fee from
estimated transaction weight × feeRate, recomputed as inputs are added since
more inputs increase transaction weight. -/
def estimatedFee (nInputs feeRate : Nat) : Nat :=
  feeRate * (txBaseVBytes + nInputs * inputVBytes)

/-- Modelled from the spec: largest-first accumulation — keep adding the
next-largest candidate until the accumulated value covers the target plus
the fee estimated for the inputs chosen so far; `none` when the candidates
run out first. -/
def selectGo (tgt feeRate : Nat) : List Utxo → List Utxo → Option (List Utxo)
  | chosen, [] =>
      if tgt + estimatedFee chosen.length feeRate ≤ sumValue chosen then
        some chosen
      else none
  | chosen, u :: rest =>
      if tgt + estimatedFee chosen.length feeRate ≤ sumValue chosen then
        some chosen
      else selectGo tgt feeRate (chosen ++ [u]) rest

/-- Modelled from the spec: `select(availableUtxos, targetAmount, feeRate)` —
sort candidates largest-first and accumulate; on exhaustion fail with an
`InsufficientFundsError` whose shortfall is
`targetAmount + fee(all) - sum(all)`. -/
def select (utxos : List Utxo) (tgt feeRate : Nat) : Except Nat (List Utxo) :=
  match selectGo tgt feeRate [] (sortUtxos utxos) with
  | some chosen => Except.ok chosen
  | none => Except.error (tgt + estimatedFee utxos.length feeRate - sumValue utxos)

/-- Dust threshold for a witness-pubkey-hash change output, in satoshis. -/
def dustThreshold : Nat := 546

/-- The sequence number bdk assigns when replace-by-fee signaling is enabled
(`tx_builder.enable_rbf()`, src/main.rs:208); a sequence number below
`0xFFFFFFFE` signals RBF. -/
def rbfSequence : Nat := 4294967293

/-- One input of the built transaction. -/
structure TxInput where
  txid : Nat
  vout : Nat
  sequence : Nat
  deriving DecidableEq, Repr

/-- One output of the built transaction. -/
structure TxOutput where
  scriptPubKey : Nat
  amount : Nat
  deriving DecidableEq, Repr

/-- The unsigned transaction assembled by the builder. -/
structure BuiltTx where
  inputs : List TxInput
  outputs : List TxOutput
  deriving DecidableEq, Repr

/-- The `TransactionDetails` summary returned by `tx_builder.finish()`. -/
structure TxDetails where
  fee : Nat
  sent : Nat
  change : Nat
  deriving DecidableEq, Repr

/-- Total value of the built transaction's outputs. -/
def outputsSum (tx : BuiltTx) : Nat := (tx.outputs.map TxOutput.amount).sum

/-- Modelled from the spec: the transaction builder — one RBF-signaling input
per selected UTXO, the recipient output, and a change output only when the
remainder exceeds the dust threshold; otherwise the whole remainder is
absorbed into the fee. -/
def build_tx (chosen : List Utxo) (destScript amount feeRate changeScript : Nat) :
    BuiltTx × TxDetails :=
  let fee0 := estimatedFee chosen.length feeRate
  let total := sumValue chosen
  let remainder := total - amount - fee0
  let inputs := chosen.map fun u => TxInput.mk u.txid u.vout rbfSequence
  if dustThreshold < remainder then
    (⟨inputs, [⟨destScript, amount⟩, ⟨changeScript, remainder⟩]⟩,
     ⟨fee0, amount, remainder⟩)
  else
    (⟨inputs, [⟨destScript, amount⟩]⟩, ⟨total - amount, amount, 0⟩)

/-- The `send` verb (src/main.rs:184-221): select coins for the amount, then
build the RBF-signaling transaction paying the destination script, with
change back to the change descriptor's script. -/
def executeSend (utxos : List Utxo) (amount feeRate destScript changeScript : Nat) :
    Except Nat (BuiltTx × TxDetails) :=
  (select utxos amount feeRate).map fun chosen =>
    build_tx chosen destScript amount feeRate changeScript

/-! ## Balance (the `balance` operation, src/main.rs:139-155)

Modelled from the spec: `wallet.get_balance()` (src/main.rs:148) is library
code not present under `src/`; the spec defines
`confirmedBalance(utxoIndex)` as the sum of `value` over UTXOs with
confirmations ≥ 1. -/

/-- Modelled from the spec: `confirmedBalance(utxoIndex) → u64` — sum of
`value` over UTXOs with confirmations ≥ 1. -/
def get_balance : List Utxo → Nat
  | [] => 0
  | u :: rest => (if 1 ≤ u.confirmations then u.value else 0) + get_balance rest

/-! ## Descriptor derivation (the `receive` operation, src/main.rs:156-183)

Modelled from the spec: `wallet.get_address(AddressIndex::Peek(index))`
(src/main.rs:160) is library code not present under `src/`; the spec makes
`derive(descriptor, index)` deterministic and side-effect-free, while the
wallet tracks a next-unused index per chain. -/

/-- A parsed output descriptor: a script-type tag over an extended public
key. Immutable once parsed. -/
structure Descriptor where
  scriptType : Nat
  xpub : Nat
  deriving DecidableEq, Repr

/-- The concrete script pubkey and address derived from a descriptor at an
index. -/
structure DerivedScript where
  scriptPubKey : Nat
  address : Nat
  deriving DecidableEq, Repr

/-- Modelled from the spec: non-hardened child key derivation at an index —
a deterministic mixing function standing in for the standard hierarchical
(HMAC-based) child derivation. -/
def childKey (xpub index : Nat) : Nat :=
  (xpub * 2654435761 + index * 2246822519 + 1013904223) % 2 ^ 32

/-- Modelled from the spec: `derive(descriptor, index) → DerivedScript` —
derive the child key, then assemble the script per the descriptor's
script-type rules; the address is the text encoding of that script. -/
def derive (d : Descriptor) (index : Nat) : DerivedScript :=
  let k := childKey d.xpub index
  ⟨d.scriptType * 2 ^ 32 + k, d.scriptType * 2 ^ 32 + k⟩

/-- The ephemeral wallet derivation state: the next-unused index on the
external chain. -/
structure WalletState where
  nextExternal : Nat
  deriving DecidableEq, Repr

/-- Address lookup mode, as in bdk's `AddressIndex`: `new` derives at the
next-unused index and advances it; `peek i` derives at exactly index `i`. -/
inductive AddressIndex where
  | new
  | peek (i : Nat)
  deriving DecidableEq, Repr

/-- The derived address together with its index, as in bdk's `AddressInfo`
(destructured at src/main.rs:163). -/
structure AddressInfo where
  index : Nat
  address : DerivedScript
  deriving DecidableEq, Repr

/-- Modelled from the spec: `wallet.get_address` — `new` advances the
next-unused index, `peek i` derives at exactly `i` and leaves the wallet
state unchanged. -/
def get_address (d : Descriptor) (s : WalletState) :
    AddressIndex → AddressInfo × WalletState
  | AddressIndex.new =>
      (⟨s.nextExternal, derive d s.nextExternal⟩, ⟨s.nextExternal + 1⟩)
  | AddressIndex.peek i => (⟨i, derive d i⟩, s)

/-- The `receive` verb (src/main.rs:156-183): derive the address at the
given index via `AddressIndex::Peek`. -/
def executeReceive (d : Descriptor) (i : Nat) (s : WalletState) :
    AddressInfo × WalletState :=
  get_address d s (AddressIndex.peek i)

/-! ## Concrete fixtures used by the claim witnesses -/

/-- A PSBT with one input lacking any signature data: it cannot be
finalized. -/
def unfinalizedPsbt : Psbt := ⟨[2, 0, 0, 0], [[]], []⟩

/-- A partially-signed PSBT: the first input carries a partial signature
(key type 2), the second nothing yet. -/
def partialPsbt : Psbt :=
  ⟨[2, 0, 0, 0], [[([2, 170], [48, 69, 2, 33])], []], [[]]⟩

/-- A malformed base64 payload: `!` is not in the base64 alphabet. -/
def malformedB64 : List Char := ['!', '!', '!', '!']

/-- A wallet holding a single 10,000-satoshi confirmed UTXO. -/
def oneUtxo : List Utxo := [⟨1, 0, 10000, 2⟩]

/-- A wallet holding a single 3,600-satoshi confirmed UTXO. -/
def smallUtxo : List Utxo := [⟨1, 0, 3600, 2⟩]

end BdkCli

namespace BdkCli

/-! ## Helper lemmas -/

theorem charSextet_sextetChar : ∀ n < 64, charSextet (sextetChar n) = some n := by
  decide

theorem sextetChar_ne_pad : ∀ n < 64, sextetChar n ≠ '=' := by
  decide

/-- Round-trip of the base64 transport layer on byte lists. -/
theorem b64Decode_b64Encode :
    ∀ bs : List Nat, (∀ b ∈ bs, b < 256) → b64Decode (b64Encode bs) = some bs
  | [], _ => rfl
  | [b0], h => by
      have hb0 : b0 < 256 := h b0 (by simp)
      have h1 : b0 / 4 < 64 := by omega
      have h2 : b0 % 4 * 16 < 64 := by omega
      rw [b64Encode, b64Decode, charSextet_sextetChar _ h1,
        charSextet_sextetChar _ h2]
      simp
      omega
  | [b0, b1], h => by
      have hb0 : b0 < 256 := h b0 (by simp)
      have hb1 : b1 < 256 := h b1 (by simp)
      have h1 : b0 / 4 < 64 := by omega
      have h2 : b0 % 4 * 16 + b1 / 16 < 64 := by omega
      have h3 : b1 % 16 * 4 < 64 := by omega
      have hne3 : sextetChar (b1 % 16 * 4) ≠ '=' := sextetChar_ne_pad _ h3
      rw [b64Encode, b64Decode, charSextet_sextetChar _ h1,
        charSextet_sextetChar _ h2, charSextet_sextetChar _ h3]
      simp [hne3]
      omega
  | b0 :: b1 :: b2 :: rest, h => by
      have hb0 : b0 < 256 := h b0 (by simp)
      have hb1 : b1 < 256 := h b1 (by simp)
      have hb2 : b2 < 256 := h b2 (by simp)
      have h1 : b0 / 4 < 64 := by omega
      have h2 : b0 % 4 * 16 + b1 / 16 < 64 := by omega
      have h3 : b1 % 16 * 4 + b2 / 64 < 64 := by omega
      have h4 : b2 % 64 < 64 := by omega
      have hne3 : sextetChar (b1 % 16 * 4 + b2 / 64) ≠ '=' :=
        sextetChar_ne_pad _ h3
      have hne4 : sextetChar (b2 % 64) ≠ '=' := sextetChar_ne_pad _ h4
      have ih := b64Decode_b64Encode rest
        (fun b hb => h b (by simp [hb]))
      rw [show b64Encode (b0 :: b1 :: b2 :: rest) =
            sextetChar (b0 / 4) :: sextetChar (b0 % 4 * 16 + b1 / 16) ::
            sextetChar (b1 % 16 * 4 + b2 / 64) :: sextetChar (b2 % 64) ::
            b64Encode rest from by
          rcases rest with _ | ⟨b3, rest⟩
          · rfl
          · rfl]
      rw [b64Decode, charSextet_sextetChar _ h1, charSextet_sextetChar _ h2,
        charSextet_sextetChar _ h3, charSextet_sextetChar _ h4, ih]
      simp [hne3, hne4]
      omega

theorem fromLE8_toLE8 (n : Nat) (hn : n < 256 ^ 8) (rest : List Nat) :
    fromLE8 (toLE8 n ++ rest) = some (n, rest) := by
  rw [toLE8]
  show some _ = some (n, rest)
  congr 1
  congr 1
  omega

theorem decodeBytes_encodeBytes (xs : List Nat) (h : xs.length < 256 ^ 8)
    (rest : List Nat) : decodeBytes (encodeBytes xs ++ rest) = some (xs, rest) := by
  rw [encodeBytes, decodeBytes, List.append_assoc, fromLE8_toLE8 _ h]
  simp

theorem decodeN_flatten {α : Type} (g : List Nat → Option (α × List Nat))
    (f : α → List Nat) (l : List α)
    (h : ∀ x ∈ l, ∀ r : List Nat, g (f x ++ r) = some (x, r)) :
    ∀ rest : List Nat,
      decodeN g l.length ((l.map f).flatten ++ rest) = some (l, rest) := by
  induction l with
  | nil => intro rest; simp [decodeN]
  | cons x xs ih =>
      intro rest
      rw [List.length_cons, List.map_cons, List.flatten_cons, List.append_assoc,
        decodeN, h x (by simp)]
      simp only [Option.some_bind]
      rw [ih (fun y hy r => h y (by simp [hy]) r)]
      rfl

theorem decodePair_encodePair (kv : List Nat × List Nat)
    (hk : kv.1.length < 256 ^ 8) (hv : kv.2.length < 256 ^ 8)
    (rest : List Nat) : decodePair (encodePair kv ++ rest) = some (kv, rest) := by
  rw [encodePair, decodePair, List.append_assoc, decodeBytes_encodeBytes _ hk]
  simp only [Option.some_bind]
  rw [decodeBytes_encodeBytes _ hv]
  rfl

theorem decodeMap_encodeMap (m : List (List Nat × List Nat)) (h : mapWf m)
    (rest : List Nat) : decodeMap (encodeMap m ++ rest) = some (m, rest) := by
  rw [encodeMap, decodeMap, List.append_assoc, fromLE8_toLE8 _ h.1]
  simp only [Option.some_bind]
  exact decodeN_flatten decodePair encodePair m
    (fun kv hkv r =>
      decodePair_encodePair kv ((h.2 kv hkv).1.1) ((h.2 kv hkv).2.1) r) rest

/-- Binary round-trip: deserializing the serialization of a well-formed PSBT
recovers it exactly. -/
theorem deserializePsbt_serializePsbt (p : Psbt) (h : p.wf) :
    deserializePsbt (serializePsbt p) = some p := by
  obtain ⟨htx, hinLen, hin, houtLen, hout⟩ := h
  rw [serializePsbt, deserializePsbt]
  rw [List.append_assoc, decodeBytes_encodeBytes _ htx.1]
  simp only [Option.some_bind]
  rw [List.append_assoc, fromLE8_toLE8 _ hinLen]
  simp only [Option.some_bind]
  rw [decodeN_flatten decodeMap encodeMap p.inputMaps
      (fun m hm r => decodeMap_encodeMap m (hin m hm) r)]
  simp only [Option.some_bind]
  rw [fromLE8_toLE8 _ houtLen]
  simp only [Option.some_bind]
  have := decodeN_flatten decodeMap encodeMap p.outputMaps
    (fun m hm r => decodeMap_encodeMap m (hout m hm) r) []
  rw [List.append_nil] at this
  rw [this]
  rfl

theorem toLE8_lt256 (n : Nat) : ∀ b ∈ toLE8 n, b < 256 := by
  intro b hb
  simp [toLE8] at hb
  rcases hb with h | h | h | h | h | h | h | h <;> omega

theorem encodeBytes_lt256 (xs : List Nat) (h : ∀ b ∈ xs, b < 256) :
    ∀ b ∈ encodeBytes xs, b < 256 := by
  intro b hb
  rcases List.mem_append.mp hb with h1 | h1
  · exact toLE8_lt256 _ b h1
  · exact h b h1

theorem encodeMap_lt256 (m : List (List Nat × List Nat)) (h : mapWf m) :
    ∀ b ∈ encodeMap m, b < 256 := by
  intro b hb
  rcases List.mem_append.mp hb with h1 | h1
  · exact toLE8_lt256 _ b h1
  · obtain ⟨l, hl, hbl⟩ := List.mem_flatten.mp h1
    obtain ⟨kv, hkv, rfl⟩ := List.mem_map.mp hl
    rcases List.mem_append.mp hbl with h2 | h2
    · exact encodeBytes_lt256 _ ((h.2 kv hkv).1.2) b h2
    · exact encodeBytes_lt256 _ ((h.2 kv hkv).2.2) b h2

theorem serializePsbt_lt256 (p : Psbt) (h : p.wf) :
    ∀ b ∈ serializePsbt p, b < 256 := by
  obtain ⟨htx, _, hin, _, hout⟩ := h
  intro b hb
  simp only [serializePsbt, List.mem_cons] at hb
  rcases hb with rfl | rfl | rfl | rfl | rfl | hb
  · omega
  · omega
  · omega
  · omega
  · omega
  rcases List.mem_append.mp hb with hb | hb
  rcases List.mem_append.mp hb with hb | hb
  · exact encodeBytes_lt256 _ htx.2 b hb
  · rcases List.mem_append.mp hb with hb | hb
    · exact toLE8_lt256 _ b hb
    · obtain ⟨l, hl, hbl⟩ := List.mem_flatten.mp hb
      obtain ⟨m, hm, rfl⟩ := List.mem_map.mp hl
      exact encodeMap_lt256 m (hin m hm) b hbl
  · rcases List.mem_append.mp hb with hb | hb
    · exact toLE8_lt256 _ b hb
    · obtain ⟨l, hl, hbl⟩ := List.mem_flatten.mp hb
      obtain ⟨m, hm, rfl⟩ := List.mem_map.mp hl
      exact encodeMap_lt256 m (hout m hm) b hbl

theorem sumValue_insertUtxo (u : Utxo) (l : List Utxo) :
    sumValue (insertUtxo u l) = u.value + sumValue l := by
  induction l with
  | nil => rfl
  | cons v rest ih =>
      rw [insertUtxo]
      by_cases h : utxoBefore u v
      · simp [h, sumValue]
      · simp [h, sumValue, List.map_cons, List.sum_cons] at ih ⊢
        omega

theorem length_insertUtxo (u : Utxo) (l : List Utxo) :
    (insertUtxo u l).length = l.length + 1 := by
  induction l with
  | nil => rfl
  | cons v rest ih =>
      rw [insertUtxo]
      by_cases h : utxoBefore u v
      · simp [h]
      · simp [h, ih]

theorem sumValue_sortUtxos (l : List Utxo) : sumValue (sortUtxos l) = sumValue l := by
  induction l with
  | nil => rfl
  | cons u rest ih =>
      rw [sortUtxos, sumValue_insertUtxo, ih]
      simp [sumValue]

theorem length_sortUtxos (l : List Utxo) : (sortUtxos l).length = l.length := by
  induction l with
  | nil => rfl
  | cons u rest ih => rw [sortUtxos, length_insertUtxo, ih, List.length_cons]

theorem selectGo_some_sufficient (tgt feeRate : Nat) :
    ∀ rest chosen c, selectGo tgt feeRate chosen rest = some c →
      tgt + estimatedFee c.length feeRate ≤ sumValue c := by
  intro rest
  induction rest with
  | nil =>
      intro chosen c h
      rw [selectGo] at h
      by_cases hc : tgt + estimatedFee chosen.length feeRate ≤ sumValue chosen
      · rw [if_pos hc] at h
        cases h
        exact hc
      · rw [if_neg hc] at h
        cases h
  | cons u rest ih =>
      intro chosen c h
      rw [selectGo] at h
      by_cases hc : tgt + estimatedFee chosen.length feeRate ≤ sumValue chosen
      · rw [if_pos hc] at h
        cases h
        exact hc
      · rw [if_neg hc] at h
        exact ih _ _ h

theorem selectGo_none_insufficient (tgt feeRate : Nat) :
    ∀ rest chosen, selectGo tgt feeRate chosen rest = none →
      sumValue (chosen ++ rest) <
        tgt + estimatedFee (chosen ++ rest).length feeRate := by
  intro rest
  induction rest with
  | nil =>
      intro chosen h
      rw [selectGo] at h
      by_cases hc : tgt + estimatedFee chosen.length feeRate ≤ sumValue chosen
      · rw [if_pos hc] at h
        cases h
      · rw [if_neg hc] at h
        rw [List.append_nil]
        omega
  | cons u rest ih =>
      intro chosen h
      rw [selectGo] at h
      by_cases hc : tgt + estimatedFee chosen.length feeRate ≤ sumValue chosen
      · rw [if_pos hc] at h
        cases h
      · rw [if_neg hc] at h
        have := ih (chosen ++ [u]) h
        rw [List.append_assoc] at this
        simpa using this

theorem select_ok_sufficient (utxos : List Utxo) (tgt feeRate : Nat)
    (chosen : List Utxo) (h : select utxos tgt feeRate = Except.ok chosen) :
    tgt + estimatedFee chosen.length feeRate ≤ sumValue chosen := by
  rw [select] at h
  cases hgo : selectGo tgt feeRate [] (sortUtxos utxos) with
  | some c =>
      rw [hgo] at h
      cases h
      exact selectGo_some_sufficient tgt feeRate (sortUtxos utxos) [] chosen hgo
  | none => rw [hgo] at h; cases h

/-! ## Claim theorems -/

/-- C1 (counterexample): a PSBT whose single input is not finalized — and
cannot be finalized for lack of signature data — is still extracted and
broadcast by the `broadcast` operation: the finalization flag is discarded
(src/main.rs:236), `extract_tx` is infallible at its call site
(src/main.rs:239), and the broadcast proceeds. This refutes "if any input is
not finalized, extraction fails with NotFinalizedError and no transaction is
broadcast". -/
theorem c1_counterexample :
    isFullyFinalized (finalize_psbt unfinalizedPsbt).1 = false ∧
    (executeBroadcast (serializePsbtText unfinalizedPsbt)).1 =
      [Effect.sync,
       Effect.broadcastTx (extract_tx (finalize_psbt unfinalizedPsbt).1)] ∧
    (executeBroadcast (serializePsbtText unfinalizedPsbt)).2 =
      Except.ok (extract_tx (finalize_psbt unfinalizedPsbt).1) :=
  ⟨rfl, rfl, rfl⟩

/-- C1 (amended): for every PSBT that reaches the `broadcast` operation
through both decode layers, the operation finalizes what it can, discards
the finalization flag, extracts the transaction unconditionally, and
broadcasts it — regardless of whether `isFullyFinalized` holds. -/
theorem c1_broadcast_unconditional (s : List Char) (bytes : List Nat) (p : Psbt)
    (h1 : b64Decode s = some bytes) (h2 : deserializePsbt bytes = some p) :
    executeBroadcast s =
      ([Effect.sync, Effect.broadcastTx (extract_tx (finalize_psbt p).1)],
       Except.ok (extract_tx (finalize_psbt p).1)) := by
  simp only [executeBroadcast, h1, h2]

/-- C1 (witness): the amended claim evaluated on the unfinalizable PSBT. -/
theorem c1_broadcast_unconditional_witness :
    executeBroadcast (serializePsbtText unfinalizedPsbt) =
      ([Effect.sync,
        Effect.broadcastTx (extract_tx (finalize_psbt unfinalizedPsbt).1)],
       Except.ok (extract_tx (finalize_psbt unfinalizedPsbt).1)) :=
  c1_broadcast_unconditional (serializePsbtText unfinalizedPsbt)
    (serializePsbt unfinalizedPsbt) unfinalizedPsbt rfl rfl

/-- C2 (counterexample): on a malformed base64 payload the `broadcast`
operation does fail with a decode error and exit non-zero, but a network
call HAS been attempted before the failure: `create_wallet` connects to the
Electrum server and syncs (src/main.rs:223, 107-135) before
`base64::decode` runs (src/main.rs:226). This refutes "no network call is
attempted before the failure". -/
theorem c2_counterexample :
    (executeBroadcast malformedB64).2 = Except.error "DecodeError" ∧
    broadcastExitCode malformedB64 = 1 ∧
    Effect.sync ∈ (executeBroadcast malformedB64).1 :=
  ⟨rfl, rfl, by decide⟩

/-- C2 (amended): for every malformed base64 payload, the `broadcast`
operation fails with a decode error and exits non-zero, and no broadcast
network call is attempted — but the wallet-creation sync network call
happens before the decode failure. -/
theorem c2_decode_error (s : List Char) (h : b64Decode s = none) :
    executeBroadcast s = ([Effect.sync], Except.error "DecodeError") ∧
    broadcastExitCode s = 1 ∧
    hasBroadcastEffect (executeBroadcast s).1 = false := by
  have he : executeBroadcast s = ([Effect.sync], Except.error "DecodeError") := by
    simp only [executeBroadcast, h]
  refine ⟨he, ?_, ?_⟩
  · rw [broadcastExitCode, he]
  · rw [he]
    rfl

/-- C2 (witness): the amended claim evaluated on the malformed payload. -/
theorem c2_decode_error_witness :
    executeBroadcast malformedB64 = ([Effect.sync], Except.error "DecodeError") ∧
    broadcastExitCode malformedB64 = 1 ∧
    hasBroadcastEffect (executeBroadcast malformedB64).1 = false :=
  c2_decode_error malformedB64 rfl

/-- C3: for every set of available UTXOs, target amount and fee rate, coin
selection either returns a chosen subset whose total value covers the target
plus the fee estimated for the chosen inputs, or fails — exactly when even
the full set is insufficient — with an `InsufficientFundsError` whose
shortfall is `target + fee(all) - sum(all)`. -/
theorem c3_select_sufficiency (utxos : List Utxo) (tgt feeRate : Nat) :
    (∃ chosen, select utxos tgt feeRate = Except.ok chosen ∧
      tgt + estimatedFee chosen.length feeRate ≤ sumValue chosen) ∨
    (sumValue utxos < tgt + estimatedFee utxos.length feeRate ∧
      select utxos tgt feeRate =
        Except.error (tgt + estimatedFee utxos.length feeRate - sumValue utxos)) := by
  rw [select]
  cases hgo : selectGo tgt feeRate [] (sortUtxos utxos) with
  | some chosen =>
      exact Or.inl ⟨chosen, rfl,
        selectGo_some_sufficient tgt feeRate (sortUtxos utxos) [] chosen hgo⟩
  | none =>
      refine Or.inr ⟨?_, rfl⟩
      have := selectGo_none_insufficient tgt feeRate (sortUtxos utxos) [] hgo
      rw [List.nil_append, sumValue_sortUtxos, length_sortUtxos] at this
      exact this

/-- C4: whenever coin selection succeeds, the transaction the builder emits
(the one the `send` operation returns) has the sum of selected input values
≥ the sum of output values plus the fee. -/
theorem c4_inputs_cover_outputs (utxos : List Utxo)
    (amount feeRate destScript changeScript : Nat) (chosen : List Utxo)
    (h : select utxos amount feeRate = Except.ok chosen) :
    executeSend utxos amount feeRate destScript changeScript =
      Except.ok (build_tx chosen destScript amount feeRate changeScript) ∧
    outputsSum (build_tx chosen destScript amount feeRate changeScript).1 +
      (build_tx chosen destScript amount feeRate changeScript).2.fee ≤
      sumValue chosen := by
  have hsuf := select_ok_sufficient utxos amount feeRate chosen h
  constructor
  · rw [executeSend, h]
    rfl
  · simp only [build_tx]
    by_cases hdust :
        dustThreshold <
          sumValue chosen - amount - estimatedFee chosen.length feeRate
    · rw [if_pos hdust]
      simp only [outputsSum, List.map_cons, List.map_nil, List.sum_cons,
        List.sum_nil]
      omega
    · rw [if_neg hdust]
      simp only [outputsSum, List.map_cons, List.map_nil, List.sum_cons,
        List.sum_nil]
      omega

/-- C4 (witness): the invariant evaluated on a send of 3,000 satoshis from a
single 10,000-satoshi UTXO at fee rate 1. -/
theorem c4_inputs_cover_outputs_witness :
    executeSend oneUtxo 3000 1 42 43 =
      Except.ok (build_tx oneUtxo 42 3000 1 43) ∧
    outputsSum (build_tx oneUtxo 42 3000 1 43).1 +
      (build_tx oneUtxo 42 3000 1 43).2.fee ≤ sumValue oneUtxo :=
  c4_inputs_cover_outputs oneUtxo 3000 1 42 43 oneUtxo rfl

/-- C5: when the total input value minus the recipient amount minus the fee
is at most the dust threshold, the builder emits no change output and the
entire remainder is absorbed into the fee (the reported fee is everything
not paid to the recipient, and the reported change is zero). -/
theorem c5_dust_suppression (chosen : List Utxo)
    (destScript amount feeRate changeScript : Nat)
    (h : sumValue chosen - amount - estimatedFee chosen.length feeRate ≤
      dustThreshold) :
    (build_tx chosen destScript amount feeRate changeScript).1.outputs =
      [⟨destScript, amount⟩] ∧
    (build_tx chosen destScript amount feeRate changeScript).2.fee =
      sumValue chosen - amount ∧
    (build_tx chosen destScript amount feeRate changeScript).2.change = 0 := by
  simp only [build_tx]
  rw [if_neg (by omega)]
  exact ⟨rfl, rfl, rfl⟩

/-- C5 (witness): dust suppression evaluated on a send of 3,000 satoshis
from a single 3,600-satoshi UTXO at fee rate 1 (remainder 459 ≤ 546). -/
theorem c5_dust_suppression_witness :
    (build_tx smallUtxo 42 3000 1 43).1.outputs = [⟨42, 3000⟩] ∧
    (build_tx smallUtxo 42 3000 1 43).2.fee = sumValue smallUtxo - 3000 ∧
    (build_tx smallUtxo 42 3000 1 43).2.change = 0 :=
  c5_dust_suppression smallUtxo 42 3000 1 43 (by decide)

/-- C6: for every UTXO index, the reported balance equals the exact sum of
`value` over the UTXOs with confirmations ≥ 1, and no others. -/
theorem c6_confirmed_balance (utxos : List Utxo) :
    get_balance utxos =
      ((utxos.filter fun u => 1 ≤ u.confirmations).map Utxo.value).sum := by
  induction utxos with
  | nil => rfl
  | cons u rest ih =>
      rw [get_balance, ih, List.filter_cons]
      by_cases h : 1 ≤ u.confirmations
      · simp [h]
      · simp [h]

/-- C7: for every valid PSBT (including partially-signed states),
deserializing the serialization — binary PSBT wrapped in the base64
transport encoding — yields the PSBT back, structurally equal. -/
theorem c7_psbt_roundtrip (p : Psbt) (h : p.wf) :
    deserializePsbtText (serializePsbtText p) = some p := by
  rw [deserializePsbtText, serializePsbtText,
    b64Decode_b64Encode _ (serializePsbt_lt256 p h), Option.some_bind,
    deserializePsbt_serializePsbt p h]

/-- C7 (witness): the round-trip evaluated on a partially-signed PSBT. -/
theorem c7_psbt_roundtrip_witness :
    deserializePsbtText (serializePsbtText partialPsbt) = some partialPsbt :=
  c7_psbt_roundtrip partialPsbt (by decide)

/-- C8: derivation is deterministic and side-effect-free — the `receive`
operation run twice on the same descriptor and index (the second run starting
from whatever wallet state the first one left) yields the identical derived
address, namely `derive(D, i)` both times. -/
theorem c8_derive_deterministic (d : Descriptor) (i : Nat) (s : WalletState) :
    (executeReceive d i s).1.address = derive d i ∧
    (executeReceive d i ((executeReceive d i s).2)).1.address =
      (executeReceive d i s).1.address :=
  ⟨rfl, rfl⟩

/-- C9: every transaction the `send` operation emits signals replace-by-fee:
RBF is unconditionally enabled (src/main.rs:208), so each input's sequence
number is the RBF-signaling value, which is below 0xFFFFFFFE. -/
theorem c9_rbf_signaled (utxos : List Utxo)
    (amount feeRate destScript changeScript : Nat) (tx : BuiltTx) (d : TxDetails)
    (h : executeSend utxos amount feeRate destScript changeScript =
      Except.ok (tx, d)) :
    ∀ txin ∈ tx.inputs, txin.sequence = rbfSequence ∧
      txin.sequence < 4294967294 := by
  rw [executeSend] at h
  cases hsel : select utxos amount feeRate with
  | error e =>
      rw [hsel] at h
      simp [Except.map] at h
  | ok chosen =>
      rw [hsel] at h
      simp only [Except.map, Except.ok.injEq] at h
      intro txin htxin
      have hmem : txin ∈
          (build_tx chosen destScript amount feeRate changeScript).1.inputs := by
        rw [h]
        exact htxin
      revert hmem
      simp only [build_tx]
      split
      · intro hmem
        simp only [List.mem_map] at hmem
        obtain ⟨u, _, rfl⟩ := hmem
        exact ⟨rfl, by norm_num [rbfSequence]⟩
      · intro hmem
        simp only [List.mem_map] at hmem
        obtain ⟨u, _, rfl⟩ := hmem
        exact ⟨rfl, by norm_num [rbfSequence]⟩

/-- C9 (witness): the RBF property evaluated on the one input of the sample
send. -/
theorem c9_rbf_signaled_witness :
    (TxInput.mk 1 0 rbfSequence).sequence = rbfSequence ∧
    (TxInput.mk 1 0 rbfSequence).sequence < 4294967294 :=
  c9_rbf_signaled oneUtxo 3000 1 42 43 (build_tx oneUtxo 42 3000 1 43).1
    (build_tx oneUtxo 42 3000 1 43).2 rfl
    (TxInput.mk 1 0 rbfSequence) (by decide)

/-- C10: the `receive` operation uses `AddressIndex::Peek(index)`
(src/main.rs:160): it derives the address at exactly the requested index,
leaves the wallet's derivation state unchanged, and therefore repeated
invocations with the same descriptor and index return the same address. -/
theorem c10_peek_no_advance (d : Descriptor) (i : Nat) (s : WalletState) :
    (executeReceive d i s).2 = s ∧
    (executeReceive d i s).1.index = i ∧
    (executeReceive d i s).1.address = derive d i ∧
    (executeReceive d i ((executeReceive d i s).2)).1 =
      (executeReceive d i s).1 :=
  ⟨rfl, rfl, rfl, rfl⟩

end BdkCli